import Mathlib

/-!
Verification of the concurrency core of the Koolie utility library.

The TypeScript sources are shallowly embedded as Lean definitions:

* `Semaphore` (src/types/Semaphore.ts): a counting semaphore with a FIFO
  list of waiters, each waiter carrying the amount it `required` and a tag
  identifying it (in the source the tag is the `PromiseSettler` used to
  resolve the waiter; here it is an arbitrary value used to track identity).
* `WorkQueue` (src/types/WorkQueue.ts): a producer/consumer queue built on
  two semaphores.
* `ConcurrencyGate` (src/types/ConcurrencyGate.ts): a FIFO gate limiting
  concurrent job execution.
* `Pipe` / `Transform` (src/pipeline): a channel over a `WorkQueue` and a
  mapping node.

The runtime is a single-threaded cooperative event loop, so each method
body between `await` points runs atomically; methods are embedded as pure
state transformers.  An operation that would suspend the caller is reported
with a `false` completion flag (or a `blocked` result) and, where the
suspended continuation matters (a producer blocked inside `produce`), the
pending continuation is carried in the semaphore waiter's tag.
-/

namespace Koolie

/-- A waiter on a semaphore: the `required` amount plus a tag identifying
the waiting caller (standing in for the `PromiseSettler`). -/
structure SemWaiter (α : Type) where
  required : Nat
  tag : α
deriving Repr, DecidableEq

/-- State of `Semaphore` from src/types/Semaphore.ts: the numeric `value`
and the FIFO list of waiters (head of the list = first arrival). -/
structure Semaphore (α : Type) where
  value : Int
  waiters : List (SemWaiter α)
deriving Repr, DecidableEq

/-- `Semaphore.P(i)`: if there are no waiters and `i <= value`, take the
fast path and decrement; otherwise append the caller to the waiter list
(the caller suspends).  The returned flag is `true` exactly when the fast
path was taken. -/
def Semaphore.P {α : Type} (s : Semaphore α) (i : Nat) (t : α) :
    Semaphore α × Bool :=
  if s.waiters.isEmpty ∧ (i : Int) ≤ s.value then
    ({ s with value := s.value - i }, true)
  else
    ({ s with waiters := s.waiters ++ [⟨i, t⟩] }, false)

/-- The wake-up loop inside `Semaphore.V`: starting from the incremented
value, repeatedly pop the head waiter while its `required` amount fits in
the current value, decrementing as we go.  Returns the final value, the
remaining waiters and the list of waiters that were resolved, in order. -/
def vLoop {α : Type} (value : Int) :
    List (SemWaiter α) → Int × List (SemWaiter α) × List (SemWaiter α)
  | [] => (value, [], [])
  | w :: ws =>
    if (w.required : Int) ≤ value then
      let r := vLoop (value - w.required) ws
      (r.1, r.2.1, w :: r.2.2)
    else
      (value, w :: ws, [])

/-- `Semaphore.V(i)`: increment the value by `i` and run the wake-up loop.
Returns the new state and the waiters resolved by this call (their
settlers are scheduled via `setImmediate` in the source). -/
def Semaphore.V {α : Type} (s : Semaphore α) (i : Nat) :
    Semaphore α × List (SemWaiter α) :=
  let r := vLoop (s.value + i) s.waiters
  (⟨r.1, r.2.1⟩, r.2.2)

/-- `Semaphore.getValue()` -/
def Semaphore.getValue {α : Type} (s : Semaphore α) : Int := s.value

/-- `Semaphore.getNumWaiters()` -/
def Semaphore.getNumWaiters {α : Type} (s : Semaphore α) : Nat :=
  s.waiters.length

/-- Total amount required by the queued waiters. -/
def pendingSum {α : Type} (s : Semaphore α) : Nat :=
  (s.waiters.map SemWaiter.required).sum

/-- The wake-up loop only ever services a prefix of the waiter list: the
original list is exactly the resolved waiters followed by the remaining
ones. -/
theorem vLoop_split {α : Type} (ws : List (SemWaiter α)) (v : Int) :
    ws = (vLoop v ws).2.2 ++ (vLoop v ws).2.1 := by
  induction ws generalizing v with
  | nil => simp [vLoop]
  | cons w ws ih =>
    by_cases h : (w.required : Int) ≤ v
    · simpa [vLoop, h] using ih (v - w.required)
    · simp [vLoop, h]

/-- Value accounting for the wake-up loop. -/
theorem vLoop_value {α : Type} (ws : List (SemWaiter α)) (v : Int) :
    (vLoop v ws).1 =
      v - (((vLoop v ws).2.2).map SemWaiter.required).sum := by
  induction ws generalizing v with
  | nil => simp [vLoop]
  | cons w ws ih =>
    by_cases h : (w.required : Int) ≤ v
    · simp only [vLoop, h, if_pos, List.map_cons, List.sum_cons]
      rw [ih (v - w.required)]
      push_cast
      ring
    · simp [vLoop, h]

/-- The wake-up loop never drives the value negative: it only subtracts a
waiter's requirement when it fits. -/
theorem vLoop_nonneg {α : Type} (ws : List (SemWaiter α)) (v : Int)
    (hv : 0 ≤ v) : 0 ≤ (vLoop v ws).1 := by
  induction ws generalizing v with
  | nil => simpa [vLoop]
  | cons w ws ih =>
    by_cases h : (w.required : Int) ≤ v
    · simp only [vLoop, h, if_pos]
      exact ih (v - w.required) (by omega)
    · simpa [vLoop, h]

/-- `V` on a semaphore with no waiters just bumps the value. -/
theorem V_no_waiters {α : Type} (s : Semaphore α) (i : Nat)
    (h : s.waiters = []) : s.V i = (⟨s.value + i, []⟩, []) := by
  simp [Semaphore.V, h, vLoop]

/-- An operation in a semaphore trace: an `acquire i` call (`P`/`wait`) or
a `release i` call (`V`/`signal`). -/
inductive SemOp
  | acquire (i : Nat)
  | release (i : Nat)
deriving Repr, DecidableEq

/-- Apply one trace operation; the `Nat` component is a fresh-tag counter
so that every enqueued waiter gets a distinct identity. -/
def semStep (s : Semaphore Nat × Nat) (op : SemOp) : Semaphore Nat × Nat :=
  match op with
  | .acquire i => ((s.1.P i s.2).1, s.2 + 1)
  | .release i => ((s.1.V i).1, s.2)

/-- Run a trace of acquire/release operations from the given state. -/
def semRun (s : Semaphore Nat) (ops : List SemOp) : Semaphore Nat :=
  (ops.foldl semStep (s, 0)).1

/-- Total amount requested by the acquire operations of a trace. -/
def totalAcquired : List SemOp → Nat
  | [] => 0
  | .acquire i :: ops => i + totalAcquired ops
  | .release _ :: ops => totalAcquired ops

/-- Total amount supplied by the release operations of a trace. -/
def totalReleased : List SemOp → Nat
  | [] => 0
  | .acquire _ :: ops => totalReleased ops
  | .release i :: ops => i + totalReleased ops

/-- One `P` step preserves the accounting quantity `value - pendingSum`
up to the acquired amount. -/
theorem P_account {α : Type} (s : Semaphore α) (i : Nat) (t : α) :
    (s.P i t).1.value - (pendingSum (s.P i t).1 : Int) =
      s.value - pendingSum s - i := by
  unfold Semaphore.P
  by_cases h : s.waiters.isEmpty ∧ (i : Int) ≤ s.value
  · rw [if_pos h]
    simp [pendingSum]
    ring
  · rw [if_neg h]
    simp [pendingSum]
    ring

/-- One `V` step increases the accounting quantity `value - pendingSum`
by exactly the released amount. -/
theorem V_account {α : Type} (s : Semaphore α) (i : Nat) :
    (s.V i).1.value - (pendingSum (s.V i).1 : Int) =
      s.value - pendingSum s + i := by
  have hsplit := vLoop_split s.waiters (s.value + i)
  have hval := vLoop_value s.waiters (s.value + i)
  simp only [Semaphore.V, pendingSum]
  rw [hval]
  have : (s.waiters.map SemWaiter.required).sum =
      (((vLoop (s.value + i) s.waiters).2.2).map SemWaiter.required).sum +
      (((vLoop (s.value + i) s.waiters).2.1).map SemWaiter.required).sum := by
    conv_lhs => rw [hsplit]
    simp
  rw [this]
  push_cast
  ring

/-- `P` never drives the value negative. -/
theorem P_nonneg {α : Type} (s : Semaphore α) (i : Nat) (t : α)
    (hv : 0 ≤ s.value) : 0 ≤ (s.P i t).1.value := by
  unfold Semaphore.P
  by_cases h : s.waiters.isEmpty ∧ (i : Int) ≤ s.value
  · rw [if_pos h]
    obtain ⟨-, h2⟩ := h
    simp
    omega
  · rw [if_neg h]
    simpa

/-- `V` never drives the value negative. -/
theorem V_nonneg {α : Type} (s : Semaphore α) (i : Nat)
    (hv : 0 ≤ s.value) : 0 ≤ (s.V i).1.value :=
  vLoop_nonneg s.waiters (s.value + i) (by omega)

/-- Accounting invariant over a whole trace: the quantity
`value - pendingSum` changes by `totalReleased - totalAcquired`. -/
theorem semRun_account (ops : List SemOp) :
    ∀ (s : Semaphore Nat) (n : Nat),
      ((ops.foldl semStep (s, n)).1).value -
          (pendingSum (ops.foldl semStep (s, n)).1 : Int) =
        s.value - pendingSum s + totalReleased ops - totalAcquired ops := by
  induction ops with
  | nil => intro s n; simp [totalReleased, totalAcquired]
  | cons op ops ih =>
    intro s n
    cases op with
    | acquire i =>
      simp only [List.foldl_cons, semStep, totalReleased, totalAcquired]
      rw [ih]
      have := P_account s i n
      push_cast
      omega
    | release i =>
      simp only [List.foldl_cons, semStep, totalReleased, totalAcquired]
      rw [ih]
      have := V_account s i
      push_cast
      omega

/-- The semaphore value stays nonnegative along a whole trace. -/
theorem semRun_nonneg (ops : List SemOp) :
    ∀ (s : Semaphore Nat) (n : Nat), 0 ≤ s.value →
      0 ≤ ((ops.foldl semStep (s, n)).1).value := by
  induction ops with
  | nil => intro s n h; simpa
  | cons op ops ih =>
    intro s n h
    cases op with
    | acquire i =>
      exact ih _ _ (P_nonneg s i n h)
    | release i =>
      exact ih _ _ (V_nonneg s i h)

/-- C1: FIFO fairness is strict.  When the waiter list is non-empty,
`P(i)` enqueues the caller at the tail — even when `i` would fit in the
current value — leaving the value untouched and not completing
immediately; and `V(j)` only ever services waiters from the head of the
list: the resolved waiters are exactly a prefix of the old waiter list,
in arrival order, with the unresolved ones the corresponding suffix.  So
a later waiter is never resolved while an earlier one is unresolved. -/
theorem semaphore_strict_fifo {α : Type} (s : Semaphore α) (i : Nat)
    (t : α) (h : s.waiters ≠ []) :
    (s.P i t).1.value = s.value ∧
    (s.P i t).1.waiters = s.waiters ++ [⟨i, t⟩] ∧
    (s.P i t).2 = false ∧
    ∀ j : Nat, s.waiters = (s.V j).2 ++ (s.V j).1.waiters := by
  have hne : ¬ s.waiters.isEmpty := by
    simpa [List.isEmpty_iff] using h
  refine ⟨?_, ?_, ?_, ?_⟩
  · simp [Semaphore.P, hne]
  · simp [Semaphore.P, hne]
  · simp [Semaphore.P, hne]
  · intro j
    simpa [Semaphore.V] using vLoop_split s.waiters (s.value + j)

/-- Witness for C1 at a concrete state: value 5, one queued waiter
requiring 7; a new `P(2)` request (2 ≤ 5 < 7) is still enqueued behind
it, and a `V(4)` resolves exactly the head waiter. -/
theorem semaphore_strict_fifo_witness :
    (Semaphore.P ⟨5, [⟨7, 0⟩]⟩ 2 1).1.value = 5 ∧
    (Semaphore.P ⟨5, [⟨7, 0⟩]⟩ 2 1).1.waiters = [⟨7, 0⟩, ⟨2, 1⟩] ∧
    (Semaphore.P ⟨5, [⟨7, 0⟩]⟩ 2 1).2 = false ∧
    ([⟨7, 0⟩] : List (SemWaiter Nat)) =
      (Semaphore.V ⟨5, [⟨7, 0⟩]⟩ 4).2 ++
        (Semaphore.V ⟨5, [⟨7, 0⟩]⟩ 4).1.waiters := by
  have h := semaphore_strict_fifo (⟨5, [⟨7, 0⟩]⟩ : Semaphore Nat) 2 1
    (by decide)
  exact ⟨h.1, h.2.1, h.2.2.1, h.2.2.2 4⟩

/-- C4: conservation and nonnegativity.  Starting from initial value
`v0 ≥ 0` (a `Nat`), every trace keeps `getValue() ≥ 0`; and if at the
end of a trace every acquire has been satisfied (no waiters remain) and
the total acquired amount equals the total released amount, the final
value is exactly `v0`. -/
theorem semaphore_conservation (v0 : Nat) (ops : List SemOp)
    (hdone : (semRun ⟨v0, []⟩ ops).waiters = [])
    (hbal : totalAcquired ops = totalReleased ops) :
    (semRun ⟨v0, []⟩ ops).value = v0 ∧
    ∀ ops' : List SemOp, 0 ≤ (semRun ⟨v0, []⟩ ops').value := by
  constructor
  · have h := semRun_account ops ⟨v0, []⟩ 0
    simp only [semRun] at hdone ⊢
    simp only [pendingSum, hdone, List.map_nil, List.sum_nil,
      Nat.cast_zero] at h
    omega
  · intro ops'
    exact semRun_nonneg ops' ⟨v0, []⟩ 0 (by positivity)

/-- Witness for C4: from value 2, the trace acquire 1, acquire 3 (queues),
release 2 (wakes the waiter), release 2 nets to zero and restores the
value 2 with no waiters left. -/
theorem semaphore_conservation_witness :
    (semRun ⟨2, []⟩
        [.acquire 1, .acquire 3, .release 2, .release 2]).value = 2 ∧
    0 ≤ (semRun ⟨2, []⟩ [.acquire 1, .acquire 3]).value := by
  have h := semaphore_conservation 2
    [.acquire 1, .acquire 3, .release 2, .release 2]
    (by decide) (by decide)
  exact ⟨h.1, h.2 [.acquire 1, .acquire 3]⟩

/-- Error thrown by `WorkQueue.produce` on a closed queue
("Cannot add items to a closed work queue"). -/
inductive QueueError
  | closed
deriving Repr, DecidableEq

/-- State of `WorkQueue` from src/types/WorkQueue.ts: the queued items,
the `consumers` semaphore (one signal per available item), the optional
`producers` semaphore (present only when a positive backlog was
configured; a waiter's tag is the item the blocked producer will push on
resumption), and the monotonic `closed` flag. -/
structure WorkQueue (T : Type) where
  items : List T
  consumers : Semaphore Unit
  producers : Option (Semaphore T)
  closed : Bool
deriving Repr, DecidableEq

/-- The `WorkQueue` constructor: a producers semaphore is created only
when a backlog was given and it is positive; `none` models the omitted
argument. -/
def WorkQueue.make (T : Type) (backlog : Option Int) : WorkQueue T :=
  { items := []
    consumers := ⟨0, []⟩
    producers :=
      match backlog with
      | some b => if 0 < b then some ⟨b, []⟩ else none
      | none => none
    closed := false }

/-- `WorkQueue.isEmpty()` -/
def WorkQueue.isEmpty {T : Type} (q : WorkQueue T) : Bool :=
  q.items.isEmpty

/-- `WorkQueue.isFull()`: true when a producers semaphore exists and its
value is zero. -/
def WorkQueue.isFull {T : Type} (q : WorkQueue T) : Bool :=
  match q.producers with
  | some p => p.value == 0
  | none => false

/-- `WorkQueue.length()` -/
def WorkQueue.length {T : Type} (q : WorkQueue T) : Nat :=
  q.items.length

/-- `WorkQueue.isClosed()` -/
def WorkQueue.isClosed {T : Type} (q : WorkQueue T) : Bool :=
  q.closed

/-- `WorkQueue.close()`: mark closed and signal the consumers semaphore
once per current consumer waiter. -/
def WorkQueue.close {T : Type} (q : WorkQueue T) : WorkQueue T :=
  { q with
    closed := true
    consumers := (q.consumers.V q.consumers.waiters.length).1 }

/-- The body of the per-item produce loop after capacity is secured:
`this.items.push(item); this.consumers.signal()`.  Also the continuation
a blocked producer runs once its `producers.wait()` resolves. -/
def WorkQueue.pushItem {T : Type} (q : WorkQueue T) (x : T) : WorkQueue T :=
  { q with
    items := q.items ++ [x]
    consumers := (q.consumers.V 1).1 }

/-- `WorkQueue.produce(item)` for a single item (the source accepts an
array and runs this body once per element, so a batch is the fold of this
step).  Throws on a closed queue; otherwise waits on the producers
semaphore when bounded.  The flag is `true` when the call completed
without suspending; `false` means the producer is now blocked inside
`producers.wait()` with its item recorded as the waiter's tag. -/
def WorkQueue.produce {T : Type} (q : WorkQueue T) (x : T) :
    Except QueueError (WorkQueue T × Bool) :=
  if q.closed then .error .closed
  else
    match q.producers with
    | none => .ok (q.pushItem x, true)
    | some p =>
      let r := p.P 1 x
      if r.2 then .ok (({ q with producers := some r.1 }).pushItem x, true)
      else .ok ({ q with producers := some r.1 }, false)

/-- Result of a `consume()` call: a real item, "no data" (undefined), or
the call would suspend waiting on the consumers semaphore. -/
inductive ConsumeRes (T : Type)
  | item (x : T)
  | noData
  | blocked
deriving Repr, DecidableEq

/-- Resume the producers woken by a `producers.signal()`: each one's
continuation pushes its pending item and signals the consumers
semaphore, in FIFO order. -/
def WorkQueue.wakeProducers {T : Type} (q : WorkQueue T)
    (woken : List (SemWaiter T)) : WorkQueue T :=
  woken.foldl (fun acc w => acc.pushItem w.tag) q

/-- `WorkQueue.consume()`.  If empty and closed, return "no data"
immediately.  Otherwise wait on the consumers semaphore (a call that
would suspend is reported as `blocked` with the queue unchanged); on
success shift the head item and, when bounded, signal the producers
semaphore — resuming blocked producers.  A wake-up with no item on a
closed queue also yields "no data". -/
def WorkQueue.consume {T : Type} (q : WorkQueue T) :
    WorkQueue T × ConsumeRes T :=
  if q.items.isEmpty ∧ q.closed then (q, .noData)
  else
    let r := q.consumers.P 1 ()
    if r.2 then
      match q.items with
      | [] =>
        if q.closed then ({ q with consumers := r.1 }, .noData)
        else (q, .blocked)
      | x :: rest =>
        match q.producers with
        | none => ({ q with items := rest, consumers := r.1 }, .item x)
        | some p =>
          let v := p.V 1
          (WorkQueue.wakeProducers
            { q with items := rest, consumers := r.1, producers := some v.1 }
            v.2, .item x)
    else (q, .blocked)

/-- The items that blocked producers are still waiting to push, in the
order their `produce` calls were made. -/
def WorkQueue.pendingItems {T : Type} (q : WorkQueue T) : List T :=
  match q.producers with
  | some p => p.waiters.map SemWaiter.tag
  | none => []

/-- An operation in a work-queue trace. -/
inductive WQOp (T : Type)
  | produce (x : T)
  | consume
  | close
deriving Repr

/-- A trace state: the queue plus the history of items returned by
`consume` and of items accepted by `produce` calls (an item whose
producer is still blocked counts as accepted — it is in flight). -/
structure WQTrace (T : Type) where
  queue : WorkQueue T
  consumed : List T
  produced : List T
deriving Repr

/-- Apply one trace operation.  A `produce` on a closed queue throws and
changes nothing; a blocked `consume` changes nothing. -/
def wqStep {T : Type} (st : WQTrace T) (op : WQOp T) : WQTrace T :=
  match op with
  | .produce x =>
    match st.queue.produce x with
    | .error _ => st
    | .ok (q', _) => { st with queue := q', produced := st.produced ++ [x] }
  | .consume =>
    let r := st.queue.consume
    { st with
      queue := r.1
      consumed :=
        match r.2 with
        | .item x => st.consumed ++ [x]
        | _ => st.consumed }
  | .close => { st with queue := st.queue.close }

/-- Run a trace from a freshly constructed queue. -/
def wqRun {T : Type} (backlog : Option Int) (ops : List (WQOp T)) :
    WQTrace T :=
  ops.foldl wqStep
    { queue := WorkQueue.make T backlog, consumed := [], produced := [] }

/-- `pushItem` appends the item and touches nothing but the consumers
semaphore. -/
theorem pushItem_items {T : Type} (q : WorkQueue T) (x : T) :
    (q.pushItem x).items = q.items ++ [x] := rfl

/-- `pushItem` leaves the producers semaphore alone. -/
theorem pushItem_producers {T : Type} (q : WorkQueue T) (x : T) :
    (q.pushItem x).producers = q.producers := rfl

/-- `wakeProducers` appends the pending items of the woken producers, in
order. -/
theorem wakeProducers_items {T : Type} (woken : List (SemWaiter T)) :
    ∀ q : WorkQueue T,
      (q.wakeProducers woken).items = q.items ++ woken.map SemWaiter.tag := by
  induction woken with
  | nil => intro q; simp [WorkQueue.wakeProducers]
  | cons w ws ih =>
    intro q
    simp only [WorkQueue.wakeProducers, List.foldl_cons] at *
    rw [ih (q.pushItem w.tag)]
    simp [pushItem_items]

/-- `wakeProducers` leaves the producers semaphore alone. -/
theorem wakeProducers_producers {T : Type} (woken : List (SemWaiter T)) :
    ∀ q : WorkQueue T,
      (q.wakeProducers woken).producers = q.producers := by
  induction woken with
  | nil => intro q; simp [WorkQueue.wakeProducers]
  | cons w ws ih =>
    intro q
    simp only [WorkQueue.wakeProducers, List.foldl_cons] at *
    rw [ih (q.pushItem w.tag)]
    rfl

/-- `close` leaves the queued items alone. -/
theorem close_items {T : Type} (q : WorkQueue T) :
    (q.close).items = q.items := rfl

/-- `close` leaves the blocked producers alone. -/
theorem close_pendingItems {T : Type} (q : WorkQueue T) :
    (q.close).pendingItems = q.pendingItems := rfl

/-- A successful `produce` adds its item at the end of the in-flight
sequence: queued items followed by the pending items of blocked
producers. -/
theorem produce_decomp {T : Type} (q : WorkQueue T) (x : T)
    (q' : WorkQueue T) (c : Bool) (h : q.produce x = .ok (q', c)) :
    q'.items ++ q'.pendingItems = q.items ++ q.pendingItems ++ [x] := by
  unfold WorkQueue.produce at h
  by_cases hc : q.closed
  · simp [hc] at h
  · rw [if_neg hc] at h
    match hp : q.producers with
    | none =>
      rw [hp] at h
      injection h with h
      obtain ⟨h1, -⟩ := Prod.mk.injEq .. ▸ h
      subst h1
      simp [pushItem_items, WorkQueue.pendingItems, pushItem_producers, hp]
    | some p =>
      rw [hp] at h
      by_cases hfast : p.waiters.isEmpty ∧ ((1 : Nat) : Int) ≤ p.value
      · have hw : p.waiters = [] := by
          simpa [List.isEmpty_iff] using hfast.1
        simp only [Semaphore.P, if_pos hfast] at h
        injection h with h
        obtain ⟨h1, -⟩ := Prod.mk.injEq .. ▸ h
        subst h1
        simp [pushItem_items, WorkQueue.pendingItems, pushItem_producers,
          hp, hw]
      · simp only [Semaphore.P, if_neg hfast] at h
        injection h with h
        obtain ⟨h1, -⟩ := Prod.mk.injEq .. ▸ h
        subst h1
        simp [WorkQueue.pendingItems, hp]

/-- `consume` removes exactly the item it returns from the front of the
in-flight sequence, possibly migrating a blocked producer's pending item
into the queue. -/
theorem consume_decomp {T : Type} (q : WorkQueue T) :
    (match q.consume.2 with
      | .item x => [x]
      | _ => ([] : List T)) ++
      q.consume.1.items ++ q.consume.1.pendingItems =
    q.items ++ q.pendingItems := by
  unfold WorkQueue.consume
  by_cases h0 : q.items.isEmpty ∧ q.closed
  · simp [h0]
  · rw [if_neg h0]
    by_cases hr : (q.consumers.P 1 ()).2
    · rw [if_pos hr]
      match hi : q.items with
      | [] =>
        by_cases hc : q.closed
        · simp [hc, WorkQueue.pendingItems]
        · simp [hc, hi]
      | x :: rest =>
        match hp : q.producers with
        | none => simp [WorkQueue.pendingItems, hp, hi]
        | some p =>
          simp only
          rw [wakeProducers_items]
          simp only [WorkQueue.pendingItems, wakeProducers_producers, hp]
          have hsplit := vLoop_split p.waiters (p.value + 1)
          simp only [Semaphore.V]
          conv_rhs => rw [hsplit]
          simp
    · simp [hr]

/-- The per-trace invariant: the consumed history followed by the queued
items and the pending items of blocked producers is exactly the sequence
of produced items, in production order. -/
def wqInvariant {T : Type} (st : WQTrace T) : Prop :=
  st.consumed ++ st.queue.items ++ st.queue.pendingItems = st.produced

/-- Every trace step preserves the FIFO invariant. -/
theorem wqStep_invariant {T : Type} (st : WQTrace T) (op : WQOp T)
    (h : wqInvariant st) : wqInvariant (wqStep st op) := by
  unfold wqInvariant at h ⊢
  cases op with
  | produce x =>
    simp only [wqStep]
    match hpr : st.queue.produce x with
    | .error e =>
      simp only [hpr]
      exact h
    | .ok (q', c) =>
      have hd := produce_decomp st.queue x q' c hpr
      simp only [hpr]
      rw [← h]
      simp only [List.append_assoc] at hd ⊢
      rw [hd]
  | consume =>
    simp only [wqStep]
    have hd := consume_decomp st.queue
    match hr : st.queue.consume.2 with
    | .item x =>
      simp only [hr] at hd ⊢
      rw [← h]
      simp only [List.append_assoc] at hd ⊢
      rw [hd]
    | .noData =>
      simp only [hr, List.nil_append] at hd
      simp only [hr]
      rw [← h]
      simp only [List.append_assoc] at hd ⊢
      rw [hd]
    | .blocked =>
      simp only [hr, List.nil_append] at hd
      simp only [hr]
      rw [← h]
      simp only [List.append_assoc] at hd ⊢
      rw [hd]
  | close =>
    simp only [wqStep, close_items, close_pendingItems]
    exact h

/-- Folding trace steps preserves the FIFO invariant. -/
theorem wqFold_invariant {T : Type} (ops : List (WQOp T)) :
    ∀ st : WQTrace T, wqInvariant st → wqInvariant (ops.foldl wqStep st) := by
  induction ops with
  | nil => intro st h; simpa
  | cons op ops ih =>
    intro st h
    exact ih _ (wqStep_invariant st op h)

/-- The FIFO invariant holds after any trace from a fresh queue. -/
theorem wqRun_invariant {T : Type} (backlog : Option Int)
    (ops : List (WQOp T)) : wqInvariant (wqRun backlog ops) := by
  apply wqFold_invariant
  cases backlog with
  | none => simp [wqInvariant, WorkQueue.pendingItems, WorkQueue.make]
  | some b =>
    by_cases hb : 0 < b <;>
      simp [wqInvariant, WorkQueue.pendingItems, WorkQueue.make, hb]

/-- Waking producers signals the consumers semaphore once per woken
producer and leaves it waiter-free. -/
theorem wakeProducers_consumers {T : Type} (woken : List (SemWaiter T)) :
    ∀ q : WorkQueue T, q.consumers.waiters = [] →
      (q.wakeProducers woken).consumers.waiters = [] ∧
      (q.wakeProducers woken).consumers.value =
        q.consumers.value + woken.length := by
  induction woken with
  | nil =>
    intro q hw
    exact ⟨hw, by simp [WorkQueue.wakeProducers]⟩
  | cons w ws ih =>
    intro q hw
    have hpush : (q.pushItem w.tag).consumers =
        ⟨q.consumers.value + 1, []⟩ := by
      simp [WorkQueue.pushItem, V_no_waiters _ 1 hw]
    obtain ⟨ha, hb⟩ := ih (q.pushItem w.tag) (by rw [hpush])
    have hstep : q.wakeProducers (w :: ws) =
        (q.pushItem w.tag).wakeProducers ws := rfl
    constructor
    · rw [hstep]
      exact ha
    · rw [hstep, hb, hpush]
      simp only [List.length_cons]
      push_cast
      ring

/-- A `produce` call that does not throw keeps the consumers semaphore
waiter-free with its value equal to the number of queued items. -/
theorem produce_consInv {T : Type} (q : WorkQueue T) (x : T)
    (q' : WorkQueue T) (c : Bool) (hok : q.produce x = .ok (q', c))
    (hw : q.consumers.waiters = [])
    (hv : q.consumers.value = q.items.length) :
    q'.consumers.waiters = [] ∧
    q'.consumers.value = q'.items.length := by
  have hpush : ∀ qq : WorkQueue T, qq.consumers = q.consumers →
      qq.items = q.items →
      (qq.pushItem x).consumers.waiters = [] ∧
      (qq.pushItem x).consumers.value = (qq.pushItem x).items.length := by
    intro qq h1 h2
    constructor
    · simp [WorkQueue.pushItem, h1, V_no_waiters _ 1 hw]
    · simp only [WorkQueue.pushItem, h1, h2, V_no_waiters _ 1 hw,
        List.length_append, List.length_cons, List.length_nil]
      rw [hv]
      push_cast
      ring
  unfold WorkQueue.produce at hok
  by_cases hc : q.closed
  · rw [if_pos hc] at hok
    cases hok
  · rw [if_neg hc] at hok
    match hp : q.producers with
    | none =>
      rw [hp] at hok
      injection hok with hok
      obtain ⟨h1, -⟩ := Prod.mk.injEq .. ▸ hok
      subst h1
      exact hpush q rfl rfl
    | some p =>
      rw [hp] at hok
      by_cases hfast : p.waiters.isEmpty ∧ ((1 : Nat) : Int) ≤ p.value
      · simp only [Semaphore.P, if_pos hfast] at hok
        injection hok with hok
        obtain ⟨h1, -⟩ := Prod.mk.injEq .. ▸ hok
        subst h1
        exact hpush _ rfl rfl
      · simp only [Semaphore.P, if_neg hfast] at hok
        injection hok with hok
        obtain ⟨h1, -⟩ := Prod.mk.injEq .. ▸ hok
        subst h1
        exact ⟨hw, hv⟩

/-- A `consume` call keeps the consumers semaphore waiter-free with its
value equal to the number of queued items. -/
theorem consume_consInv {T : Type} (q : WorkQueue T)
    (hw : q.consumers.waiters = [])
    (hv : q.consumers.value = q.items.length) :
    (q.consume).1.consumers.waiters = [] ∧
    (q.consume).1.consumers.value = (q.consume).1.items.length := by
  unfold WorkQueue.consume
  by_cases h0 : q.items.isEmpty ∧ q.closed
  · rw [if_pos h0]
    exact ⟨hw, hv⟩
  · rw [if_neg h0]
    match hi : q.items with
    | [] =>
      have hz : q.consumers.value = 0 := by
        rw [hv, hi]
        rfl
      have hslow : (q.consumers.P 1 ()).2 = false := by
        unfold Semaphore.P
        rw [if_neg (by simp [hz])]
      rw [if_neg (by simp [hslow])]
      exact ⟨hw, hv⟩
    | x :: rest =>
      have hfast : q.consumers.P 1 () =
          ({ value := q.consumers.value - ((1 : Nat) : Int),
             waiters := [] }, true) := by
        unfold Semaphore.P
        rw [if_pos ⟨by simp [hw],
          by rw [hv, hi]; push_cast [List.length_cons]; omega⟩, hw]
      rw [hfast, if_pos rfl]
      dsimp only
      cases hp : q.producers with
      | none =>
        refine ⟨rfl, ?_⟩
        dsimp only
        rw [hv, hi]
        push_cast [List.length_cons]
        ring
      | some p =>
        obtain ⟨ha, hb⟩ := wakeProducers_consumers (p.V 1).2
          { q with items := rest,
                   consumers := { value :=
                     q.consumers.value - ((1 : Nat) : Int), waiters := [] },
                   producers := some (p.V 1).1 } rfl
        refine ⟨ha, ?_⟩
        rw [hb, wakeProducers_items]
        dsimp only
        simp only [List.length_append, List.length_map]
        rw [hv, hi]
        push_cast [List.length_cons]
        ring

/-- Every trace step preserves the consumers-semaphore invariant. -/
theorem wqStep_consInv {T : Type} (st : WQTrace T) (op : WQOp T)
    (h1 : st.queue.consumers.waiters = [])
    (h2 : st.queue.consumers.value = st.queue.items.length) :
    (wqStep st op).queue.consumers.waiters = [] ∧
    (wqStep st op).queue.consumers.value =
      (wqStep st op).queue.items.length := by
  cases op with
  | produce x =>
    simp only [wqStep]
    match hpr : st.queue.produce x with
    | .error e => exact ⟨h1, h2⟩
    | .ok (q', c) => exact produce_consInv st.queue x q' c hpr h1 h2
  | consume =>
    simp only [wqStep]
    exact consume_consInv st.queue h1 h2
  | close =>
    simp only [wqStep, WorkQueue.close]
    rw [h1]
    constructor
    · simp [V_no_waiters _ _ h1]
    · simp [V_no_waiters _ _ h1, h2]

/-- The consumers-semaphore invariant holds in every state reachable
from a fresh queue. -/
theorem wqRun_consInv {T : Type} (backlog : Option Int)
    (ops : List (WQOp T)) :
    (wqRun backlog ops).queue.consumers.waiters = [] ∧
    (wqRun backlog ops).queue.consumers.value =
      (wqRun backlog ops).queue.items.length := by
  unfold wqRun
  have step : ∀ (ops' : List (WQOp T)) (st : WQTrace T),
      st.queue.consumers.waiters = [] →
      st.queue.consumers.value = st.queue.items.length →
      (ops'.foldl wqStep st).queue.consumers.waiters = [] ∧
      (ops'.foldl wqStep st).queue.consumers.value =
        (ops'.foldl wqStep st).queue.items.length := by
    intro ops'
    induction ops' with
    | nil => intro st ha hb; exact ⟨ha, hb⟩
    | cons op ops' ih =>
      intro st ha hb
      obtain ⟨ha', hb'⟩ := wqStep_consInv st op ha hb
      exact ih _ ha' hb'
  exact step ops _ rfl (by simp [WorkQueue.make])

/-- On a queue whose consumers semaphore is waiter-free and counts the
queued items — every reachable state — `consume` returns the head
buffered item whenever one exists, closed or not. -/
theorem consume_closed_nonempty {T : Type} (q : WorkQueue T) (x : T)
    (rest : List T) (hi : q.items = x :: rest)
    (hw : q.consumers.waiters = [])
    (hv : q.consumers.value = q.items.length) :
    (q.consume).2 = .item x := by
  unfold WorkQueue.consume
  rw [if_neg (by simp [hi])]
  have hfast : q.consumers.P 1 () =
      ({ value := q.consumers.value - ((1 : Nat) : Int),
         waiters := [] }, true) := by
    unfold Semaphore.P
    rw [if_pos ⟨by simp [hw],
      by rw [hv, hi]; push_cast [List.length_cons]; omega⟩, hw]
  rw [hfast, if_pos rfl, hi]
  dsimp only
  cases hp : q.producers <;> simp [hp]

/-- C2: items returned by `consume` appear in production order — the
consumed history is a prefix of the produced sequence (the in-flight
items being the rest), under every interleaving of produce, consume and
close from a fresh queue of any backlog; after `close()`, a `consume` on
any reachable state still holding buffered items returns the next
buffered item (the head), so the remaining items keep draining in
production order until the queue is empty; and on a queue that is empty
and closed, `consume` returns "no data" immediately without touching the
queue. -/
theorem workqueue_order_and_close {T : Type} (backlog : Option Int)
    (ops : List (WQOp T)) :
    ((wqRun backlog ops).consumed ++ (wqRun backlog ops).queue.items ++
        (wqRun backlog ops).queue.pendingItems =
      (wqRun backlog ops).produced) ∧
    (∃ rest, (wqRun backlog ops).consumed ++ rest =
      (wqRun backlog ops).produced) ∧
    (∀ (ops' : List (WQOp T)) (x : T) (rest : List T),
      (wqRun backlog ops').queue.isClosed = true →
      (wqRun backlog ops').queue.items = x :: rest →
      ((wqRun backlog ops').queue.consume).2 = .item x) ∧
    ∀ q : WorkQueue T, q.isEmpty = true → q.isClosed = true →
      q.consume = (q, .noData) := by
  refine ⟨wqRun_invariant backlog ops, ?_, ?_, ?_⟩
  · exact ⟨(wqRun backlog ops).queue.items ++
      (wqRun backlog ops).queue.pendingItems,
      by simpa [wqInvariant, List.append_assoc]
        using wqRun_invariant backlog ops⟩
  · intro ops' x rest _hclosed hi
    obtain ⟨hw, hv⟩ := wqRun_consInv backlog ops'
    exact consume_closed_nonempty _ x rest hi hw hv
  · intro q h1 h2
    unfold WorkQueue.consume
    rw [if_pos ⟨h1, h2⟩]

/-- Trace used by the C2 witness: produce 1, 2, 3, close, then consume
four times (the fourth call finds the queue empty and closed). -/
def wqDemoOps : List (WQOp Nat) :=
  [.produce 1, .produce 2, .produce 3, .close,
   .consume, .consume, .consume, .consume]

/-- Witness for C2 on the concrete trace produce 1,2,3; close; consume
four times: the three post-close consumes drain 1, 2, 3 in order (the
closed non-empty states return their head item), the fourth finds the
queue empty and closed, and a concrete empty closed queue answers
"no data" with its state untouched. -/
theorem workqueue_order_and_close_witness :
    ((wqRun (T := Nat) none wqDemoOps).consumed ++
        (wqRun (T := Nat) none wqDemoOps).queue.items ++
        (wqRun (T := Nat) none wqDemoOps).queue.pendingItems =
      (wqRun (T := Nat) none wqDemoOps).produced) ∧
    (wqRun (T := Nat) none wqDemoOps).consumed = [1, 2, 3] ∧
    ((wqRun (T := Nat) none
        [.produce 1, .produce 2, .produce 3, .close]).queue.consume).2 =
      .item 1 ∧
    ((wqRun (T := Nat) none
        [.produce 1, .produce 2, .produce 3, .close,
         .consume]).queue.consume).2 = .item 2 ∧
    ((wqRun (T := Nat) none
        [.produce 1, .produce 2, .produce 3, .close, .consume,
         .consume]).queue.consume).2 = .item 3 ∧
    (WorkQueue.make Nat none).close.consume =
      ((WorkQueue.make Nat none).close, .noData) := by
  have h := workqueue_order_and_close (T := Nat) none wqDemoOps
  refine ⟨h.1, by decide, ?_, ?_, ?_, h.2.2.2 _ (by decide) (by decide)⟩
  · exact h.2.2.1 [.produce 1, .produce 2, .produce 3, .close] 1 [2, 3]
      (by decide) (by decide)
  · exact h.2.2.1 [.produce 1, .produce 2, .produce 3, .close, .consume]
      2 [3] (by decide) (by decide)
  · exact h.2.2.1 [.produce 1, .produce 2, .produce 3, .close, .consume,
      .consume] 3 [] (by decide) (by decide)

/-- Produce a list of items one at a time (the body of the `for` loop in
`WorkQueue.produce` run to completion for each element). -/
def WorkQueue.produceSeq {T : Type} (q : WorkQueue T) :
    List T → WorkQueue T
  | [] => q
  | x :: xs =>
    match q.produce x with
    | .error _ => q
    | .ok (q', _) => q'.produceSeq xs

/-- Producing `xs` on an open queue whose bounded producers semaphore has
value `b ≥ |xs|` and no waiters completes every call on the fast path:
the items are appended, the consumers semaphore is signalled once per
item, and the producer capacity drops by `|xs|`. -/
theorem produceSeq_spec {T : Type} (xs : List T) :
    ∀ (q : WorkQueue T) (b : Int),
      q.closed = false → q.producers = some ⟨b, []⟩ →
      q.consumers.waiters = [] → (xs.length : Int) ≤ b →
      q.produceSeq xs =
        { items := q.items ++ xs
          consumers := ⟨q.consumers.value + xs.length, []⟩
          producers := some ⟨b - xs.length, []⟩
          closed := false } := by
  induction xs with
  | nil =>
    intro q b h1 h2 h3 h4
    cases q with
    | mk items consumers producers closed =>
      cases consumers
      simp_all [WorkQueue.produceSeq]
  | cons x xs ih =>
    intro q b h1 h2 h3 h4
    have hb1 : (1 : Int) ≤ b := by
      simp only [List.length_cons] at h4
      push_cast at h4
      omega
    have hstep : q.produce x =
        .ok (({ q with producers := some ⟨b - 1, []⟩ }).pushItem x, true) := by
      unfold WorkQueue.produce
      rw [if_neg (by simp [h1]), h2]
      simp [Semaphore.P, hb1]
    unfold WorkQueue.produceSeq
    rw [hstep]
    dsimp only
    have h3' : (({ q with producers := some ⟨b - 1, []⟩ }).pushItem
        x).consumers.waiters = [] := by
      simp [WorkQueue.pushItem, V_no_waiters _ 1 h3]
    have h4' : (xs.length : Int) ≤ b - 1 := by
      simp only [List.length_cons] at h4
      push_cast at h4
      omega
    refine (ih (({ q with producers := some ⟨b - 1, []⟩ }).pushItem x)
      (b - 1) h1 rfl h3' h4').trans ?_
    have hcons : (({ q with producers := some ⟨b - 1, []⟩ }).pushItem
        x).consumers = ⟨q.consumers.value + 1, []⟩ := by
      simp [WorkQueue.pushItem, V_no_waiters _ 1 h3]
    rw [hcons]
    simp only [WorkQueue.pushItem, WorkQueue.mk.injEq, Semaphore.mk.injEq,
      Option.some.injEq, List.length_cons]
    refine ⟨by simp, ⟨by push_cast; ring, trivial⟩,
      ⟨by push_cast; ring, trivial⟩, trivial⟩

/-- C5: with backlog bound `B = |x :: rest| ≥ 1`, producing the `B` items
`x :: rest` on a fresh queue leaves it full; a further `produce y` call
suspends, parking the producer (with its item) on the producers
semaphore without touching the queued items; and a `consume` on such a
full queue with one parked producer returns the head item and advances
the blocked producer by exactly one slot: the producer's item joins the
queue, the producers semaphore is left with value 0 and no waiters. -/
theorem workqueue_backpressure {T : Type} (B : Nat) (x : T)
    (rest : List T) (hB : (x :: rest).length = B) (y : T) :
    ((WorkQueue.make T (some (B : Int))).produceSeq (x :: rest)).isFull =
      true ∧
    ((WorkQueue.make T (some (B : Int))).produceSeq (x :: rest)).produce y =
      .ok
        ({ items := x :: rest
           consumers := ⟨(B : Int), []⟩
           producers := some ⟨0, [⟨1, y⟩]⟩
           closed := false }, false) ∧
    ∀ c : Int, 1 ≤ c →
      WorkQueue.consume
          { items := x :: rest
            consumers := ⟨c, []⟩
            producers := some ⟨0, [⟨1, y⟩]⟩
            closed := false } =
        ({ items := rest ++ [y]
           consumers := ⟨c, []⟩
           producers := some ⟨0, []⟩
           closed := false }, .item x) := by
  subst hB
  have hpos : (0 : Int) < ((x :: rest).length : Int) := by
    exact_mod_cast Nat.succ_pos rest.length
  have hq0 : (WorkQueue.make T (some ((x :: rest).length : Int))) =
      { items := []
        consumers := ⟨0, []⟩
        producers := some ⟨((x :: rest).length : Int), []⟩
        closed := false } := by
    simp [WorkQueue.make, hpos]
  have hfull := produceSeq_spec (x :: rest)
    (WorkQueue.make T (some ((x :: rest).length : Int)))
    ((x :: rest).length : Int)
    (by rw [hq0]) (by rw [hq0]) (by rw [hq0]) le_rfl
  rw [hq0] at hfull
  simp only [List.nil_append, zero_add, sub_self] at hfull
  refine ⟨?_, ?_, ?_⟩
  · rw [hq0, hfull]
    simp [WorkQueue.isFull]
  · rw [hq0, hfull]
    unfold WorkQueue.produce
    norm_num [Semaphore.P]
  · intro c hc
    have hc' : ((1 : Nat) : Int) ≤ c := by exact_mod_cast hc
    unfold WorkQueue.consume
    rw [if_neg (by simp)]
    simp only [Semaphore.P, List.isEmpty_nil, true_and]
    rw [if_pos hc']
    norm_num [Semaphore.V, vLoop, WorkQueue.wakeProducers,
      WorkQueue.pushItem]

/-- Witness for C5 with bound 2: produce [1, 2]; the queue is full; a
third produce of 9 parks; one consume returns 1 and hands the freed slot
to the parked producer. -/
theorem workqueue_backpressure_witness :
    ((WorkQueue.make Nat (some ((2 : Nat) : Int))).produceSeq
        [1, 2]).isFull = true ∧
    WorkQueue.consume
        { items := [1, 2]
          consumers := ⟨2, []⟩
          producers := some ⟨0, [⟨1, 9⟩]⟩
          closed := false } =
      ({ items := [2, 9]
         consumers := ⟨2, []⟩
         producers := some ⟨0, []⟩
         closed := false }, .item 1) := by
  have h := workqueue_backpressure (T := Nat) 2 1 [2] (by decide) 9
  exact ⟨h.1, h.2.2 2 (by decide)⟩

/-- Errors raised by the pipeline layer (src/pipeline/PipelineErrors.ts).
`queueClosed` stands for the plain `Error` thrown by
`WorkQueue.produce` escaping through `Pipe.write`. -/
inductive PipeError
  | pipeIsClosed (pipeName : String)
  | alreadyHasSink (pipeName sinkName : String)
  | queueClosed
deriving Repr, DecidableEq

/-- State of `Pipe` from src/pipeline/Pipe.ts. -/
structure Pipe (T : Type) where
  sourceName : String
  sinkName : Option String
  queue : WorkQueue T
  sinkConnected : Bool
deriving Repr, DecidableEq

/-- The `Pipe` constructor: `backlog` defaults to `0`, and is always
passed to the `WorkQueue` constructor (so the default yields an
unbounded queue, since the backlog is not positive). -/
def Pipe.make (T : Type) (sourceName : String) (backlog : Int := 0) :
    Pipe T :=
  { sourceName
    sinkName := none
    queue := WorkQueue.make T (some backlog)
    sinkConnected := false }

/-- `Pipe.isClosed()` -/
def Pipe.isClosed {T : Type} (p : Pipe T) : Bool :=
  p.queue.isClosed

/-- `Pipe.getName()` exactly as written in the source:
`sourceName + (!this.isClosed() ? '[closed]' : '') + '|' +
(sinkName ?? '[none]')` — note the marker is appended when the pipe is
NOT closed. -/
def Pipe.getName {T : Type} (p : Pipe T) : String :=
  (p.sourceName ++ (if ¬p.isClosed then "[closed]" else "")) ++ "|" ++
    p.sinkName.getD "[none]"

/-- `Pipe.hasSink()` -/
def Pipe.hasSink {T : Type} (p : Pipe T) : Bool :=
  p.sinkConnected

/-- `Pipe.connect(sinkName)`: at most one sink. -/
def Pipe.connect {T : Type} (p : Pipe T) (sinkName : String) :
    Except PipeError (Pipe T) :=
  if p.sinkConnected then .error (.alreadyHasSink p.getName sinkName)
  else .ok { p with sinkConnected := true, sinkName := some sinkName }

/-- `Pipe.disconnect()` -/
def Pipe.disconnect {T : Type} (p : Pipe T) : Pipe T :=
  { p with sinkConnected := false, sinkName := none }

/-- `Pipe.close()` -/
def Pipe.close {T : Type} (p : Pipe T) : Pipe T :=
  { p with queue := p.queue.close }

/-- `Pipe.write(data)`: throws `PipelineErrorPipeIsClosed` on a closed
pipe, otherwise delegates to `WorkQueue.produce` (whose own closed-queue
throw is unreachable after the check, but kept faithful here). -/
def Pipe.write {T : Type} (p : Pipe T) (x : T) :
    Except PipeError (Pipe T × Bool) :=
  if p.queue.isClosed then .error (.pipeIsClosed p.getName)
  else
    match p.queue.produce x with
    | .error _ => .error .queueClosed
    | .ok (q', c) => .ok ({ p with queue := q' }, c)

/-- C7: `produce` on a closed `WorkQueue` throws the queue-closed error
and the trace state is left untouched (no item is added); `Pipe.write`
on a closed pipe throws `PipelineErrorPipeIsClosed` carrying the pipe
name. -/
theorem closed_queue_rejects_writes {T U : Type} (q : WorkQueue T) (x : T)
    (hq : q.closed = true) (st : WQTrace T) (hst : st.queue.closed = true)
    (p : Pipe U) (hp : p.queue.closed = true) (y : U) :
    q.produce x = .error .closed ∧
    wqStep st (.produce x) = st ∧
    p.write y = .error (.pipeIsClosed p.getName) := by
  refine ⟨?_, ?_, ?_⟩
  · unfold WorkQueue.produce
    rw [if_pos hq]
  · have herr : st.queue.produce x = .error .closed := by
      unfold WorkQueue.produce
      rw [if_pos hst]
    simp [wqStep, herr]
  · unfold Pipe.write
    rw [if_pos (show p.queue.isClosed = true from hp)]

/-- Witness for C7: a freshly closed queue rejects `produce 5`; a
freshly closed pipe rejects `write 7` with the pipe-closed error. -/
theorem closed_queue_rejects_writes_witness :
    (WorkQueue.make Nat none).close.produce 5 = .error .closed ∧
    (Pipe.make Nat "src").close.write 7 =
      .error (.pipeIsClosed (Pipe.make Nat "src").close.getName) := by
  have h := closed_queue_rejects_writes (WorkQueue.make Nat none).close 5
    (by decide) (wqRun (T := Nat) none [.close]) (by decide)
    (Pipe.make Nat "src").close (by decide) 7
  exact ⟨h.1, h.2.2⟩

/-- C9 (code bug): `Pipe.getName()` appends the marker `"[closed]"` when
the pipe is NOT closed (`!this.isClosed() ? '[closed]' : ''`), the
opposite of the documented intent: a fresh open pipe renders with the
marker, a closed pipe renders without it.  The consumer-name half does
behave as claimed: the sink name when connected, `"[none]"` otherwise. -/
theorem pipe_getName_marker_inverted :
    (Pipe.make Nat "src").isClosed = false ∧
    (Pipe.make Nat "src").getName = "src[closed]|[none]" ∧
    (Pipe.make Nat "src").close.isClosed = true ∧
    (Pipe.make Nat "src").close.getName = "src|[none]" ∧
    (Pipe.mk "src" (some "sink") (WorkQueue.make Nat (some 0))
        true).getName = "src[closed]|sink" := by
  refine ⟨rfl, rfl, ?_, ?_, rfl⟩ <;> rfl

/-- A `produce` on an unbounded queue either throws (closed) or
completes on the spot, appending the item. -/
theorem produce_unbounded {T : Type} (q : WorkQueue T) (x : T)
    (h : q.producers = none) :
    q.produce x = .error .closed ∨ q.produce x = .ok (q.pushItem x, true) := by
  unfold WorkQueue.produce
  by_cases hc : q.closed
  · left
    rw [if_pos hc]
  · right
    rw [if_neg hc, h]

/-- Every trace step keeps an unbounded queue unbounded. -/
theorem wqStep_producers_none {T : Type} (st : WQTrace T) (op : WQOp T)
    (h : st.queue.producers = none) :
    (wqStep st op).queue.producers = none := by
  cases op with
  | produce x =>
    simp only [wqStep]
    rcases produce_unbounded st.queue x h with hp | hp <;>
      simp [hp, pushItem_producers, h]
  | consume =>
    simp only [wqStep]
    unfold WorkQueue.consume
    by_cases h0 : st.queue.items.isEmpty ∧ st.queue.closed
    · rw [if_pos h0]
      exact h
    · rw [if_neg h0]
      by_cases hr : (st.queue.consumers.P 1 ()).2
      · rw [if_pos hr]
        cases hi : st.queue.items with
        | nil =>
          by_cases hc : st.queue.closed
          · simpa [hc] using h
          · simpa [hc] using h
        | cons x rest =>
          simp only [h]
      · rw [if_neg hr]
        exact h
  | close =>
    simpa [wqStep, WorkQueue.close] using h

/-- Folding trace steps keeps an unbounded queue unbounded. -/
theorem wqFold_producers_none {T : Type} (ops : List (WQOp T)) :
    ∀ st : WQTrace T, st.queue.producers = none →
      (ops.foldl wqStep st).queue.producers = none := by
  induction ops with
  | nil => intro st h; exact h
  | cons op ops ih =>
    intro st h
    exact ih _ (wqStep_producers_none st op h)

/-- C10: when the `WorkQueue` is built with no backlog argument or a
non-positive one — which includes the `Pipe` of every Source/Transform
left at the default backlog 0 — no producers semaphore exists; along
every trace the queue stays unbounded, `isFull()` is `false`, and a
`produce`/`write` call that does not throw completes without suspending
(the completion flag is always `true`). -/
theorem workqueue_no_backpressure {T : Type} (backlog : Option Int)
    (hb : ∀ b, backlog = some b → b ≤ 0) (ops : List (WQOp T)) (x : T)
    (name : String) :
    (wqRun backlog ops).queue.producers = none ∧
    (wqRun backlog ops).queue.isFull = false ∧
    (∀ q' c, (wqRun backlog ops).queue.produce x = .ok (q', c) →
      c = true) ∧
    (Pipe.make T name).queue.producers = none ∧
    (∀ p' c, (Pipe.make T name).write x = .ok (p', c) → c = true) := by
  have hnone : ∀ st : WorkQueue T, st.producers = none →
      ∀ q' c, st.produce x = .ok (q', c) → c = true := by
    intro st hst q' c hok
    rcases produce_unbounded st x hst with hp | hp
    · rw [hp] at hok
      cases hok
    · rw [hp] at hok
      injection hok with hok
      exact (Prod.mk.injEq .. ▸ hok).2.symm
  have hrun : (wqRun backlog ops).queue.producers = none := by
    apply wqFold_producers_none
    cases backlog with
    | none => rfl
    | some b =>
      have hb' := hb b rfl
      simp [WorkQueue.make, show ¬0 < b by omega]
  refine ⟨hrun, ?_, hnone _ hrun, rfl, ?_⟩
  · simp [WorkQueue.isFull, hrun]
  · intro p' c hok
    unfold Pipe.write at hok
    by_cases hc : (Pipe.make T name).queue.isClosed
    · rw [if_pos hc] at hok
      cases hok
    · rw [if_neg hc] at hok
      match hp : (Pipe.make T name).queue.produce x with
      | .error e =>
        rw [hp] at hok
        cases hok
      | .ok (q', c') =>
        rw [hp] at hok
        injection hok with hok
        have hc' : c' = c := (Prod.mk.injEq .. ▸ hok).2
        rw [← hc']
        exact hnone _ rfl q' c' hp

/-- Witness for C10 with backlog 0 on a queue that saw one produce and
one consume: no producers semaphore, never full, a further produce
completes immediately; the default pipe is unbounded and its write
completes immediately. -/
theorem workqueue_no_backpressure_witness :
    (wqRun (T := Nat) (some 0) [.produce 1, .consume]).queue.producers =
      none ∧
    (wqRun (T := Nat) (some 0) [.produce 1, .consume]).queue.isFull =
      false ∧
    (Pipe.make Nat "s").queue.producers = none := by
  have h := workqueue_no_backpressure (T := Nat) (some 0)
    (by intro b hb; injection hb with hb; omega) [.produce 1, .consume]
    3 "s"
  exact ⟨h.1, h.2.1, h.2.2.2.1⟩

/-- `sourceProduceImpl` from src/pipeline/Source.ts: throw if the pipe is
closed, otherwise delegate to `Pipe.write`. -/
def sourceProduceImpl {T : Type} (pipe : Pipe T) (data : T) :
    Except PipeError (Pipe T × Bool) :=
  if pipe.isClosed then .error (.pipeIsClosed pipe.getName)
  else pipe.write data

/-- The state of `Transform` relevant to its data path: the outgoing
`transformedPipe` it forwards into.  The user mapping (the abstract
`transform` method) is passed explicitly as a function returning
`Option U` — `none` models the `undefined` of a dropped item. -/
structure Transform (T U : Type) where
  transformedPipe : Pipe U
deriving Repr

/-- The `Transform` constructor: a fresh outgoing pipe named after the
node, with `backlog` defaulting to 0 (unbounded). -/
def Transform.make (T U : Type) (name : String) (backlog : Int := 0) :
    Transform T U :=
  { transformedPipe := Pipe.make U name backlog }

/-- `Transform.produce(data)`: `sourceProduceImpl` on the outgoing
pipe. -/
def Transform.produce {T U : Type} (tr : Transform T U) (data : U) :
    Except PipeError (Transform T U × Bool) :=
  match sourceProduceImpl tr.transformedPipe data with
  | .error e => .error e
  | .ok (p', c) => .ok ({ tr with transformedPipe := p' }, c)

/-- `Transform.onData(data)`: apply the user mapping; when it yields no
value the item is dropped (nothing is produced downstream), otherwise
the mapped value is produced into the outgoing pipe. -/
def Transform.onData {T U : Type} (tr : Transform T U) (f : T → Option U)
    (x : T) : Except PipeError (Transform T U × Bool) :=
  match f x with
  | none => .ok (tr, true)
  | some u => tr.produce u

/-- Feed a list of consumed items through `onData` one at a time (the
sink run loop driving the transform). -/
def Transform.onDataRun {T U : Type} (tr : Transform T U)
    (f : T → Option U) : List T → Except PipeError (Transform T U)
  | [] => .ok tr
  | x :: xs =>
    match tr.onData f x with
    | .error e => .error e
    | .ok (tr', _) => tr'.onDataRun f xs

/-- On an open, unbounded outgoing pipe, `onDataRun` succeeds and the
pipe accumulates exactly the mapped values, in order. -/
theorem onDataRun_items {T U : Type} (f : T → Option U) (xs : List T) :
    ∀ tr : Transform T U, tr.transformedPipe.queue.closed = false →
      tr.transformedPipe.queue.producers = none →
      ∃ tr', tr.onDataRun f xs = .ok tr' ∧
        tr'.transformedPipe.queue.items =
          tr.transformedPipe.queue.items ++ xs.filterMap f ∧
        tr'.transformedPipe.queue.closed = false ∧
        tr'.transformedPipe.queue.producers = none := by
  induction xs with
  | nil =>
    intro tr h1 h2
    exact ⟨tr, rfl, by simp, h1, h2⟩
  | cons x xs ih =>
    intro tr h1 h2
    cases hf : f x with
    | none =>
      obtain ⟨tr', hrun, hitems, h1', h2'⟩ := ih tr h1 h2
      refine ⟨tr', ?_, ?_, h1', h2'⟩
      · unfold Transform.onDataRun Transform.onData
        rw [hf]
        exact hrun
      · rw [hitems]
        simp [List.filterMap_cons, hf]
    | some u =>
      have hq : tr.transformedPipe.queue.produce u =
          .ok (tr.transformedPipe.queue.pushItem u, true) := by
        unfold WorkQueue.produce
        rw [if_neg (by simp [h1]), h2]
      have hw : tr.transformedPipe.write u =
          .ok ({ tr.transformedPipe with
            queue := tr.transformedPipe.queue.pushItem u }, true) := by
        unfold Pipe.write
        rw [if_neg (by simp [WorkQueue.isClosed, h1]), hq]
      have hsp : sourceProduceImpl tr.transformedPipe u =
          .ok ({ tr.transformedPipe with
            queue := tr.transformedPipe.queue.pushItem u }, true) := by
        unfold sourceProduceImpl
        rw [if_neg (by simp [Pipe.isClosed, WorkQueue.isClosed, h1]), hw]
      have hod : tr.onData f x =
          .ok ({ tr with transformedPipe :=
            { tr.transformedPipe with
              queue := tr.transformedPipe.queue.pushItem u } }, true) := by
        unfold Transform.onData Transform.produce
        rw [hf]
        dsimp only
        rw [hsp]
      obtain ⟨tr', hrun, hitems, h1', h2'⟩ :=
        ih ({ tr with transformedPipe :=
          { tr.transformedPipe with
            queue := tr.transformedPipe.queue.pushItem u } }) h1 h2
      refine ⟨tr', ?_, ?_, h1', h2'⟩
      · unfold Transform.onDataRun
        rw [hod]
        exact hrun
      · rw [hitems]
        simp [WorkQueue.pushItem, List.filterMap_cons, hf]

/-- C8: a `Transform` whose mapping returns no value for an item
forwards nothing downstream for it; every item mapped to `u` has exactly
`u` produced into the outgoing pipe, in input order — the downstream
queue ends up holding `xs.filterMap f`.  In particular the mapping
"double the even numbers, drop the odd ones" over `[1, 2, 3, 4]` yields
the downstream sequence `[4, 8]`. -/
theorem transform_drop_semantics {T U : Type} (name : String)
    (f : T → Option U) (xs : List T) :
    (∃ tr', (Transform.make T U name).onDataRun f xs = .ok tr' ∧
      tr'.transformedPipe.queue.items = xs.filterMap f) ∧
    (∃ tr', (Transform.make Nat Nat "double-evens").onDataRun
        (fun n => if n % 2 = 0 then some (2 * n) else none)
        [1, 2, 3, 4] = .ok tr' ∧
      tr'.transformedPipe.queue.items = [4, 8]) := by
  constructor
  · obtain ⟨tr', hrun, hitems, -, -⟩ :=
      onDataRun_items f xs (Transform.make T U name) rfl rfl
    exact ⟨tr', hrun, by simpa using hitems⟩
  · obtain ⟨tr', hrun, hitems, -, -⟩ :=
      onDataRun_items (fun n : Nat => if n % 2 = 0 then some (2 * n)
        else none) [1, 2, 3, 4] (Transform.make Nat Nat "double-evens")
        rfl rfl
    refine ⟨tr', hrun, ?_⟩
    rw [hitems]
    decide

/-- State of `ConcurrencyGate` from src/types/ConcurrencyGate.ts:
`threshold` and `vacancies` as in the source, the FIFO `queue` of
waiting callers' tickets, plus a ghost list `running` of the callers
currently inside the gate (the source does not store it — occupancy is
`threshold - vacancies` — but the ghost lets the theorems speak about
which job is executing).  Callers are identified by `Nat` tags. -/
structure ConcurrencyGate where
  threshold : Nat
  vacancies : Nat
  queue : List Nat
  running : List Nat
deriving Repr, DecidableEq

/-- The `ConcurrencyGate` constructor: `vacancies` starts at the
threshold. -/
def ConcurrencyGate.make (threshold : Nat) : ConcurrencyGate :=
  { threshold, vacancies := threshold, queue := [], running := [] }

/-- `getVacancies()` -/
def ConcurrencyGate.getVacancies (g : ConcurrencyGate) : Nat :=
  g.vacancies

/-- `getOccupancy()` = `threshold - vacancies` -/
def ConcurrencyGate.getOccupancy (g : ConcurrencyGate) : Nat :=
  g.threshold - g.vacancies

/-- `getNumWaiting()` -/
def ConcurrencyGate.getNumWaiting (g : ConcurrencyGate) : Nat :=
  g.queue.length

/-- The admission step of `execute(job)`: with a vacancy, decrement the
count and enter (the job starts running); otherwise `getTicket()` parks
the caller at the tail of the FIFO queue.  The flag is `true` when the
job was admitted immediately. -/
def ConcurrencyGate.submit (g : ConcurrencyGate) (id : Nat) :
    ConcurrencyGate × Bool :=
  if 0 < g.vacancies then
    ({ g with vacancies := g.vacancies - 1, running := g.running ++ [id] },
      true)
  else
    ({ g with queue := g.queue ++ [id] }, false)

/-- The `finally` block of `enter`, run when the job `id` completes
(successfully or not): if a caller is waiting, hand it the vacated slot
directly — pop the head ticket and let that job in with NO change to
`vacancies`; otherwise increment `vacancies`. -/
def ConcurrencyGate.finishJob (g : ConcurrencyGate) (id : Nat) :
    ConcurrencyGate :=
  let g' := { g with running := g.running.erase id }
  match g'.queue with
  | next :: rest =>
    { g' with queue := rest, running := g'.running ++ [next] }
  | [] => { g' with vacancies := g'.vacancies + 1 }

/-- `enter(job)` with the job's outcome given explicitly: the job's
result (or thrown error) is returned unchanged, and the `finally`
cleanup runs on both paths. -/
def ConcurrencyGate.enter {E R : Type} (g : ConcurrencyGate) (id : Nat)
    (outcome : Except E R) : ConcurrencyGate × Except E R :=
  match outcome with
  | .ok r => (g.finishJob id, .ok r)
  | .error e => (g.finishJob id, .error e)

/-- An event in a gate trace: a new `execute` call, or the completion of
the job `id` (a no-op unless `id` is actually inside). -/
inductive GateOp
  | submit (id : Nat)
  | finish (id : Nat)
deriving Repr, DecidableEq

/-- Apply one trace event. -/
def gateStep (g : ConcurrencyGate) (op : GateOp) : ConcurrencyGate :=
  match op with
  | .submit id => (g.submit id).1
  | .finish id => if id ∈ g.running then g.finishJob id else g

/-- Run a trace of events from a fresh gate with the given threshold. -/
def gateRun (threshold : Nat) (ops : List GateOp) : ConcurrencyGate :=
  ops.foldl gateStep (ConcurrencyGate.make threshold)

/-- The gate invariant: slots are conserved (`vacancies + #running =
threshold`) and nobody waits while a vacancy exists. -/
def gateInvariant (g : ConcurrencyGate) : Prop :=
  g.vacancies + g.running.length = g.threshold ∧
  (g.queue ≠ [] → g.vacancies = 0)

/-- `submit` preserves the gate invariant. -/
theorem submit_invariant (g : ConcurrencyGate) (id : Nat)
    (h : gateInvariant g) : gateInvariant (g.submit id).1 := by
  obtain ⟨h1, h2⟩ := h
  unfold ConcurrencyGate.submit
  by_cases hv : 0 < g.vacancies
  · rw [if_pos hv]
    constructor
    · simp
      omega
    · intro hq
      simp at hq
      exact absurd (h2 hq) (by omega)
  · rw [if_neg hv]
    refine ⟨?_, ?_⟩
    · simpa using h1
    · intro hq
      simp
      omega

/-- `finishJob` preserves the gate invariant when the finished job was
inside the gate. -/
theorem finishJob_invariant (g : ConcurrencyGate) (id : Nat)
    (hid : id ∈ g.running) (h : gateInvariant g) :
    gateInvariant (g.finishJob id) := by
  obtain ⟨h1, h2⟩ := h
  have hlen : (g.running.erase id).length + 1 = g.running.length :=
    List.length_erase_add_one hid
  unfold ConcurrencyGate.finishJob
  match hq : g.queue with
  | next :: rest =>
    constructor
    · simp
      have := h2 (by simp [hq])
      omega
    · intro hr
      have := h2 (by simp [hq])
      simpa using this
  | [] =>
    exact ⟨by simp; omega, by simp⟩

/-- Every trace event preserves the gate invariant. -/
theorem gateStep_invariant (g : ConcurrencyGate) (op : GateOp)
    (h : gateInvariant g) : gateInvariant (gateStep g op) := by
  cases op with
  | submit id => exact submit_invariant g id h
  | finish id =>
    simp only [gateStep]
    by_cases hid : id ∈ g.running
    · rw [if_pos hid]
      exact finishJob_invariant g id hid h
    · rw [if_neg hid]
      exact h

/-- Folding trace events preserves the gate invariant. -/
theorem gateFold_invariant (ops : List GateOp) :
    ∀ g : ConcurrencyGate, gateInvariant g →
      gateInvariant (ops.foldl gateStep g) := by
  induction ops with
  | nil => intro g h; exact h
  | cons op ops ih =>
    intro g h
    exact ih _ (gateStep_invariant g op h)

/-- The gate invariant holds in every state reachable from a fresh
gate. -/
theorem gateRun_invariant (threshold : Nat) (ops : List GateOp) :
    gateInvariant (gateRun threshold ops) :=
  gateFold_invariant ops _
    ⟨by simp [ConcurrencyGate.make], by simp [ConcurrencyGate.make]⟩

/-- Submit a list of `execute` calls in order. -/
def ConcurrencyGate.submitAll (g : ConcurrencyGate) :
    List Nat → ConcurrencyGate
  | [] => g
  | id :: ids => ((g.submit id).1).submitAll ids

/-- Submitting at most `vacancies` jobs to a gate with an empty wait
queue admits all of them immediately. -/
theorem submitAll_spec (ids : List Nat) :
    ∀ g : ConcurrencyGate, g.queue = [] → ids.length ≤ g.vacancies →
      g.submitAll ids =
        { threshold := g.threshold
          vacancies := g.vacancies - ids.length
          queue := []
          running := g.running ++ ids } := by
  induction ids with
  | nil =>
    intro g h1 h2
    cases g
    simp_all [ConcurrencyGate.submitAll]
  | cons id ids ih =>
    intro g h1 h2
    have hv : 0 < g.vacancies := by
      simp only [List.length_cons] at h2
      omega
    unfold ConcurrencyGate.submitAll ConcurrencyGate.submit
    rw [if_pos hv]
    dsimp only
    rw [ih { threshold := g.threshold,
             vacancies := g.vacancies - 1,
             queue := g.queue,
             running := g.running ++ [id] } h1
      (show ids.length ≤ g.vacancies - 1 by
        simp only [List.length_cons] at h2
        omega)]
    simp only [ConcurrencyGate.mk.injEq, List.length_cons,
      List.append_assoc, List.singleton_append]
    refine ⟨trivial, by omega, trivial, trivial⟩

/-- No trace event changes the threshold. -/
theorem gateStep_threshold (g : ConcurrencyGate) (op : GateOp) :
    (gateStep g op).threshold = g.threshold := by
  cases op with
  | submit id =>
    simp only [gateStep]
    unfold ConcurrencyGate.submit
    by_cases hv : 0 < g.vacancies
    · rw [if_pos hv]
    · rw [if_neg hv]
  | finish id =>
    simp only [gateStep]
    by_cases hid : id ∈ g.running
    · rw [if_pos hid]
      unfold ConcurrencyGate.finishJob
      dsimp only
      cases hq : g.queue <;> rfl
    · rw [if_neg hid]

/-- The threshold of a reachable gate state is the one it was created
with. -/
theorem gateRun_threshold (N : Nat) (ops : List GateOp) :
    (gateRun N ops).threshold = N := by
  unfold gateRun
  have : ∀ g : ConcurrencyGate,
      (ops.foldl gateStep g).threshold = g.threshold := by
    induction ops with
    | nil => intro g; rfl
    | cons op ops ih =>
      intro g
      rw [List.foldl_cons, ih _, gateStep_threshold]
  exact this _

/-- C3: in every reachable gate state, slots are conserved
(`vacancies + #running = threshold`), so `getVacancies() ≤ N` and
`getOccupancy()` — `N - vacancies` — equals the number of running jobs
and never exceeds `N`.  Submitting `N + 1` jobs to a fresh gate of
threshold `N = |ids| ≥ 1` admits exactly the first `N`
(occupancy `N`, zero vacancies), parks the extra caller (its submit
reports "did not start"), and when a running job `j` completes, the
parked caller inherits the vacated slot directly: it moves into the
running set, occupancy stays `N`, and the vacancy count is untouched by
the hand-off. -/
theorem gate_admission (N : Nat) (_hN : 1 ≤ N) (ops : List GateOp)
    (ids : List Nat) (hlen : ids.length = N) (extra : Nat) (j : Nat)
    (hj : j ∈ ids) :
    ((gateRun N ops).getVacancies + (gateRun N ops).running.length = N ∧
      (gateRun N ops).getVacancies ≤ N ∧
      (gateRun N ops).getOccupancy = (gateRun N ops).running.length) ∧
    (((ConcurrencyGate.make N).submitAll ids).submit
        extra).1.getOccupancy = N ∧
    (((ConcurrencyGate.make N).submitAll ids).submit
        extra).1.getVacancies = 0 ∧
    (((ConcurrencyGate.make N).submitAll ids).submit
        extra).1.getNumWaiting = 1 ∧
    (((ConcurrencyGate.make N).submitAll ids).submit extra).1.queue =
      [extra] ∧
    (((ConcurrencyGate.make N).submitAll ids).submit extra).1.running =
      ids ∧
    (((ConcurrencyGate.make N).submitAll ids).submit extra).2 = false ∧
    ((((ConcurrencyGate.make N).submitAll ids).submit extra).1.finishJob
        j).running = ids.erase j ++ [extra] ∧
    ((((ConcurrencyGate.make N).submitAll ids).submit extra).1.finishJob
        j).running.length = N ∧
    ((((ConcurrencyGate.make N).submitAll ids).submit extra).1.finishJob
        j).getVacancies = 0 ∧
    ((((ConcurrencyGate.make N).submitAll ids).submit extra).1.finishJob
        j).queue = [] := by
  obtain ⟨h1, h2⟩ := gateRun_invariant N ops
  have hth := gateRun_threshold N ops
  have hAll : (ConcurrencyGate.make N).submitAll ids =
      { threshold := N, vacancies := N - ids.length, queue := [],
        running := ids } := by
    rw [submitAll_spec ids (ConcurrencyGate.make N) rfl
      (by simp [ConcurrencyGate.make, hlen])]
    simp [ConcurrencyGate.make]
  have hg1 : (((ConcurrencyGate.make N).submitAll ids).submit extra).1 =
      { threshold := N, vacancies := 0, queue := [extra],
        running := ids } := by
    rw [hAll]
    unfold ConcurrencyGate.submit
    rw [if_neg (by simp [hlen])]
    simp [hlen]
  have hflag : (((ConcurrencyGate.make N).submitAll ids).submit
      extra).2 = false := by
    rw [hAll]
    unfold ConcurrencyGate.submit
    rw [if_neg (by simp [hlen])]
  have hfin : ((((ConcurrencyGate.make N).submitAll ids).submit
      extra).1.finishJob j) =
      { threshold := N, vacancies := 0, queue := [],
        running := ids.erase j ++ [extra] } := by
    rw [hg1]
    simp [ConcurrencyGate.finishJob]
  have herase : (ids.erase j).length + 1 = N := by
    rw [List.length_erase_add_one hj, hlen]
  refine ⟨⟨?_, ?_, ?_⟩, ?_, ?_, ?_, ?_, ?_, hflag, ?_, ?_, ?_, ?_⟩
  · simp only [ConcurrencyGate.getVacancies]
    omega
  · simp only [ConcurrencyGate.getVacancies]
    omega
  · simp only [ConcurrencyGate.getOccupancy]
    omega
  · rw [hg1]
    simp [ConcurrencyGate.getOccupancy]
  · rw [hg1]
    rfl
  · rw [hg1]
    rfl
  · rw [hg1]
  · rw [hg1]
  · rw [hfin]
  · rw [hfin]
    simpa using herase
  · rw [hfin]
    rfl
  · rw [hfin]

/-- Witness for C3 with threshold 2: submitting jobs 4, 5 and then 6
yields occupancy 2, no vacancies, one waiter; when job 4 completes, 6
takes its slot with the vacancy count still 0. -/
theorem gate_admission_witness :
    (((ConcurrencyGate.make 2).submitAll [4, 5]).submit
        6).1.getOccupancy = 2 ∧
    (((ConcurrencyGate.make 2).submitAll [4, 5]).submit
        6).1.getVacancies = 0 ∧
    (((ConcurrencyGate.make 2).submitAll [4, 5]).submit
        6).1.getNumWaiting = 1 ∧
    ((((ConcurrencyGate.make 2).submitAll [4, 5]).submit
        6).1.finishJob 4).running = [5, 6] ∧
    ((((ConcurrencyGate.make 2).submitAll [4, 5]).submit
        6).1.finishJob 4).getVacancies = 0 := by
  obtain ⟨-, h2, h3, h4, -, -, -, h8, -, h10, -⟩ :=
    gate_admission 2 (by decide) [.submit 0, .finish 0] [4, 5]
      (by decide) 6 4 (by decide)
  refine ⟨h2, h3, h4, ?_, h10⟩
  rw [h8]
  decide

/-- C6: `execute`'s inner `enter` returns the job's successful result
and propagates a thrown error unchanged, and in both cases the
`finally` slot-accounting cleanup runs exactly once: with no waiters the
vacancy count is incremented by one; with waiters the head waiter is
handed the vacated slot (it joins the running set, the wait queue pops,
and the vacancy count is not touched). -/
theorem gate_enter_cleanup {E R : Type} (g : ConcurrencyGate) (id : Nat)
    (o : Except E R) :
    (g.enter id o).2 = o ∧
    (g.queue = [] →
      (g.enter id o).1 =
        { g with running := g.running.erase id,
                 vacancies := g.vacancies + 1 }) ∧
    (∀ w rest, g.queue = w :: rest →
      (g.enter id o).1 =
        { g with running := g.running.erase id ++ [w],
                 queue := rest }) := by
  have henter : (g.enter id o).1 = g.finishJob id ∧
      (g.enter id o).2 = o := by
    cases o with
    | ok r => exact ⟨rfl, rfl⟩
    | error e => exact ⟨rfl, rfl⟩
  refine ⟨henter.2, ?_, ?_⟩
  · intro hq
    rw [henter.1]
    unfold ConcurrencyGate.finishJob
    dsimp only
    rw [hq]
  · intro w rest hq
    rw [henter.1]
    unfold ConcurrencyGate.finishJob
    dsimp only
    rw [hq]

/-- Witness for C6 at a concrete gate (threshold 2, jobs 7 and 8 inside,
job 5 waiting) with a failing job 7: the error comes back unchanged and
the cleanup hands 7's slot to 5 without touching the vacancies. -/
theorem gate_enter_cleanup_witness :
    ((⟨2, 0, [5], [7, 8]⟩ : ConcurrencyGate).enter 7
        (.error "boom" : Except String Nat)).2 = .error "boom" ∧
    ((⟨2, 0, [5], [7, 8]⟩ : ConcurrencyGate).enter 7
        (.error "boom" : Except String Nat)).1 = ⟨2, 0, [], [8, 5]⟩ := by
  have h := gate_enter_cleanup (⟨2, 0, [5], [7, 8]⟩ : ConcurrencyGate) 7
    (.error "boom" : Except String Nat)
  refine ⟨h.1, ?_⟩
  rw [h.2.2 5 [] rfl]
  decide

end Koolie
